import Mathlib

/-!
Verification of the magnetometer-calibration core described by the repository
specification against `src/rosflight/include/rosflight/mag_cal.hpp`.

The repository ships only the class header: the bodies of
`CalibrateMag::intersect`, `CalibrateMag::eigSort`, `CalibrateMag::ellipsoidLS`,
`CalibrateMag::ellipsoidRANSAC`, `CalibrateMag::magCal` and
`CalibrateMag::do_mag_calibration` are not part of the sources.  Those
operations are therefore modelled from the specification text (each such
definition carries a doc comment starting `Modelled from the spec:`), while the
result accessors `a11 … a33`, `bx`, `by`, `bz` and the member-field layout are
embedded directly from the header.  Real-valued scalars stand in for the
`double` arithmetic of the original code.
-/

namespace MagCal

open Matrix

/-- A 3-vector of real scalars (`Eigen::Vector3d`). -/
abbrev V3 := Fin 3 → ℝ

/-- A real 3×3 matrix (`Eigen::MatrixXd` holding a 3×3 block). -/
abbrev M3 := Matrix (Fin 3) (Fin 3) ℝ

/-- Modelled from the spec: the Quadric Model data carried through the RANSAC
pipeline.  The implementation file is absent from the repository; per spec
§4.4 the estimator "derives the candidate's center and eigen-decomposition
(via Eigen-Sort) to get Q, r_e, and the linear/constant terms needed by the
Intersector", so the model records the ellipsoid center, the rotation `R`
(eigenvector columns), the eigenvalues `lam`, and the center-relative linear
term `ub` and constant term `k`. -/
structure QuadricModel where
  center : V3
  R : M3
  lam : V3
  ub : V3
  k : ℝ

/-- The symmetric quadric matrix reconstructed from the eigen-decomposition,
`Q = R · diag(lam) · Rᵗ`. -/
def Qmat (M : QuadricModel) : M3 :=
  M.R * Matrix.diagonal M.lam * M.R.transpose

/-- The center-relative quadric form: a displacement `d` from the ellipsoid
center lies on the surface exactly when `dᵗ·Q·d + ubᵗ·d + k = 0`. -/
def quadricCR (Q : M3) (ub : V3) (k : ℝ) (d : V3) : ℝ :=
  d ⬝ᵥ Q.mulVec d + ub ⬝ᵥ d + k

/-- Positive definiteness of the quadric matrix, as used by the spec's
ellipsoid invariant ("Q must be positive-definite"). -/
def PosDef3 (Q : M3) : Prop :=
  ∀ d : V3, d ≠ 0 → 0 < d ⬝ᵥ Q.mulVec d

/-- Modelled from the spec: the root selection of `CalibrateMag::intersect`.
Substituting the parametric ray into the center-relative quadric equation
gives the quadratic `qa·t² + qb·t + k = 0`; the physically meaningful root is
selected (`t > 0`, and the nearer one along the ray when two positive roots
exist). -/
noncomputable def intersectT (qa qb k : ℝ) : ℝ :=
  if 0 < (-qb - Real.sqrt (qb ^ 2 - 4 * qa * k)) / (2 * qa) then
    (-qb - Real.sqrt (qb ^ 2 - 4 * qa * k)) / (2 * qa)
  else
    (-qb + Real.sqrt (qb ^ 2 - 4 * qa * k)) / (2 * qa)

/-- Modelled from the spec: `CalibrateMag::intersect` (body absent from the
repository).  Per spec §4.3 it substitutes the parametric ray
`r_e + t·(r_m − r_e)` into the center-relative quadric equation, solves the
quadratic in `t`, and selects the physically meaningful root, returning the
surface point `r_e + t·(r_m − r_e)`. -/
noncomputable def intersect (r_m r_e : V3) (Q : M3) (ub : V3) (k : ℝ) : V3 :=
  r_e +
    intersectT ((r_m - r_e) ⬝ᵥ Q.mulVec (r_m - r_e)) (ub ⬝ᵥ (r_m - r_e)) k • (r_m - r_e)

/-- Euclidean norm of a 3-vector. -/
noncomputable def norm3 (x : V3) : ℝ :=
  Real.sqrt (x ⬝ᵥ x)

/-- Modelled from the spec: the residual used by the RANSAC scorer — "the
distance between a sample and its corresponding ellipsoid-surface point"
(glossary, Inlier threshold). -/
noncomputable def residual (M : QuadricModel) (m : V3) : ℝ :=
  norm3 (m - intersect m M.center (Qmat M) M.ub M.k)

/-- Modelled from the spec: the inlier subset of a sample list for a candidate
model — spec §4.4 "admits the sample as an inlier if its residual is within
the configured inlier threshold". -/
noncomputable def inliers (M : QuadricModel) (thresh : ℝ) : List V3 → List V3
  | [] => []
  | m :: rest =>
    if residual M m ≤ thresh then m :: inliers M thresh rest
    else inliers M thresh rest

/-- The inlier count of a candidate model over a sample list. -/
noncomputable def countInliers (M : QuadricModel) (thresh : ℝ) (meas : List V3) : ℕ :=
  (inliers M thresh meas).length

/-- Modelled from the spec: one best-tracking step of the RANSAC driver — the
incumbent is replaced only by a strictly larger inlier count, so ties keep the
first-found candidate (spec §4.4). -/
def ransacStep {μ : Type} (count : μ → ℕ) (best : Option μ) (c : μ) : Option μ :=
  match best with
  | none => some c
  | some b => if count b < count c then some c else some b

/-- Modelled from the spec: the best-tracking loop of
`CalibrateMag::ellipsoidRANSAC` (body absent from the repository) — folds the
candidate models produced by the iterations, "tracking the candidate with the
largest inlier count seen so far". -/
def ransacSelect {μ : Type} (count : μ → ℕ) (cands : List μ) : Option μ :=
  cands.foldl (ransacStep count) none

/-- Modelled from the spec: the final stage of `CalibrateMag::ellipsoidRANSAC`
(body absent from the repository).  `fit` stands for the Ellipsoid
Least-Squares Fitter (also absent; the pipeline is parametric in it), `cands`
for the candidate models produced by the iterations.  Per spec §4.4, after
exhausting iterations the fitter is re-run on the winning candidate's full
inlier set, and a winning inlier set smaller than 9 is a run-level Fit
Failure. -/
noncomputable def ransacFinal (fit : List V3 → QuadricModel) (cands : List QuadricModel)
    (meas : List V3) (thresh : ℝ) : Option QuadricModel :=
  match ransacSelect (fun M => countInliers M thresh meas) cands with
  | none => none
  | some w =>
    if countInliers w thresh meas < 9 then none
    else some (fit (inliers w thresh meas))

/-- The ordering on (eigenvalue, eigenvector) pairs used by Eigen-Sort:
compare by eigenvalue. -/
def eigLE {α : Type} {β : Type} [LinearOrder α] (p q : α × β) : Prop :=
  p.1 ≤ q.1

instance {α β : Type} [LinearOrder α] : DecidableRel (eigLE (α := α) (β := β)) :=
  fun p q => inferInstanceAs (Decidable (p.1 ≤ q.1))

instance {α β : Type} [LinearOrder α] : IsTotal (α × β) eigLE :=
  ⟨fun p q => le_total p.1 q.1⟩

instance {α β : Type} [LinearOrder α] : IsTrans (α × β) eigLE :=
  ⟨fun _ _ _ h h2 => le_trans h h2⟩

/-- Modelled from the spec: `CalibrateMag::eigSort` (body absent from the
repository).  Per spec §4.1 it takes the set of (eigenvalue, eigenvector)
pairs of a decomposition and "produces the same set reordered so eigenvalues
are ascending, with each eigenvector's column permuted identically to its
eigenvalue"; modelled as a stable sort of the pair list by eigenvalue. -/
def eigSort {α : Type} {β : Type} [LinearOrder α] (pairs : List (α × β)) : List (α × β) :=
  pairs.insertionSort eigLE

/-- Modelled from the spec: the soft-iron matrix of the Calibration Parameter
Derivation, `A = R · diag(√(s² / λᵢ)) · Rᵗ` (spec §4.5). -/
noncomputable def calA (M : QuadricModel) (s : ℝ) : M3 :=
  M.R * Matrix.diagonal (fun i => Real.sqrt (s ^ 2 / M.lam i)) * M.R.transpose

/-- Modelled from the spec: `CalibrateMag::magCal` (body absent from the
repository).  Per spec §4.5 it checks that every eigenvalue is positive
(non-positive values are a Fit Failure, producing no transform), and otherwise
returns the soft-iron matrix `A` together with the hard-iron bias
`b = c`, the ellipsoid center. -/
noncomputable def magCal (M : QuadricModel) (s : ℝ) : Option (M3 × V3) :=
  if ∀ i, 0 < M.lam i then some (calA M s, M.center) else none

/-- A dynamically sized real matrix, standing in for `Eigen::MatrixXd`: a runtime
row/column count together with the entries. -/
structure DynMatrix where
  rows : ℕ
  cols : ℕ
  entry : Fin rows → Fin cols → ℝ

/-- Reading entry `(i, j)` of a dynamically sized matrix: in-bounds reads
return the entry, out-of-bounds reads return nothing (the C++ read would be
undefined behaviour). -/
def DynMatrix.read (M : DynMatrix) (i j : ℕ) : Option ℝ :=
  if h : i < M.rows ∧ j < M.cols then some (M.entry ⟨i, h.1⟩ ⟨j, h.2⟩) else none

/-- The empty (0×0) dynamic matrix, the state of `A_`/`b_` before any
calibration has completed. -/
def dyn0 : DynMatrix :=
  ⟨0, 0, fun i _ => i.elim0⟩

/-- The member fields of the `CalibrateMag` session, from the header
(`mag_cal.hpp`, private section): the stored calibration result `A_`, `b_`,
the configuration values, the run flags and the sample buffer. -/
structure Session where
  A_ : DynMatrix
  b_ : DynMatrix
  reference_field_strength_ : ℝ
  calibrating_ : Bool
  first_time_ : Bool
  calibration_time_ : ℝ
  start_time_ : ℝ
  ransac_iters_ : ℤ
  measurement_skip_ : ℤ
  measurement_throttle_ : ℤ
  inlier_thresh_ : ℝ
  measurement_prev_ : V3
  measurements_ : List V3

/-- `double a11() const { return A_(0, 0); }` from the header. -/
def a11 (st : Session) : Option ℝ := st.A_.read 0 0

/-- `double a12() const { return A_(0, 1); }` from the header. -/
def a12 (st : Session) : Option ℝ := st.A_.read 0 1

/-- `double a13() const { return A_(0, 2); }` from the header. -/
def a13 (st : Session) : Option ℝ := st.A_.read 0 2

/-- `double a21() const { return A_(1, 0); }` from the header. -/
def a21 (st : Session) : Option ℝ := st.A_.read 1 0

/-- `double a22() const { return A_(1, 1); }` from the header. -/
def a22 (st : Session) : Option ℝ := st.A_.read 1 1

/-- `double a23() const { return A_(1, 2); }` from the header. -/
def a23 (st : Session) : Option ℝ := st.A_.read 1 2

/-- `double a31() const { return A_(2, 0); }` from the header. -/
def a31 (st : Session) : Option ℝ := st.A_.read 2 0

/-- `double a32() const { return A_(2, 1); }` from the header. -/
def a32 (st : Session) : Option ℝ := st.A_.read 2 1

/-- `double a33() const { return A_(2, 2); }` from the header. -/
def a33 (st : Session) : Option ℝ := st.A_.read 2 2

/-- `double bx() const { return b_(0, 0); }` from the header. -/
def bx (st : Session) : Option ℝ := st.b_.read 0 0

/-- `double by() const { return b_(1, 0); }` from the header (`by` is a
reserved word in Lean, hence the trailing underscore). -/
def by_ (st : Session) : Option ℝ := st.b_.read 1 0

/-- `double bz() const { return b_(2, 0); }` from the header. -/
def bz (st : Session) : Option ℝ := st.b_.read 2 0

/-- Modelled from the spec: the run-level failure kinds of §7 — Insufficient
Data, No Consensus, Degenerate Geometry. -/
inductive RunFailure
  | insufficientData
  | noConsensus
  | degenerateGeometry
deriving DecidableEq

/-- Modelled from the spec: `CalibrateMag::do_mag_calibration` (body absent
from the repository).  The fitting stage of a run: require at least 9 samples
(else Insufficient Data; the gate checks the buffer length — §7's "distinct,
non-degenerate" qualifier is not enforced here, and where distinctness
matters it is established separately, cf. the `Nodup` fact accompanying the
run over `spherePts`), run the RANSAC estimator with final refit (a missing
final model is No Consensus), derive the calibration parameters (a
non-positive eigenvalue is Degenerate Geometry), and only on success replace
the stored `A_`, `b_` wholesale. -/
noncomputable def runCalibration (st : Session) (fit : List V3 → QuadricModel)
    (cands : List QuadricModel) : Session × Except RunFailure Unit :=
  if st.measurements_.length < 9 then (st, Except.error RunFailure.insufficientData)
  else
    match ransacFinal fit cands st.measurements_ st.inlier_thresh_ with
    | none => (st, Except.error RunFailure.noConsensus)
    | some M =>
      match magCal M st.reference_field_strength_ with
      | none => (st, Except.error RunFailure.degenerateGeometry)
      | some Ab =>
        ({ st with
            A_ := ⟨3, 3, fun i j => Ab.1 i j⟩
            b_ := ⟨3, 1, fun i _ => Ab.2 i⟩ },
          Except.ok ())

/-- The session-level view of invoking `magCal`: the member function is
declared `const` in the header, so the call leaves the session untouched and
delivers the derived pair only through its outputs. -/
noncomputable def magCalCall (st : Session) (M : QuadricModel) :
    Session × Option (M3 × V3) :=
  (st, magCal M st.reference_field_strength_)

/-- The unit vector along the first axis, used as a concrete sample point. -/
def e0 : V3 := fun i => if i = 0 then 1 else 0

/-- A concrete 3-vector from its coordinates. -/
def vec3 (x y z : ℝ) : V3 :=
  fun i => if i = 0 then x else if i = 1 then y else z

/-- A concrete quadric model: the unit sphere centered at the origin
(`Q = I`, `ub = 0`, `k = -1`). -/
def Mw : QuadricModel :=
  { center := 0, R := 1, lam := fun _ => 1, ub := 0, k := -1 }

/-- A concrete quadric model: the sphere of radius `1/2` centered at the
origin (`Q = diag(4,4,4)`, `ub = 0`, `k = -1`). -/
def M0 : QuadricModel :=
  { center := 0, R := 1, lam := fun _ => 4, ub := 0, k := -1 }

/-- A constant stand-in for the least-squares fitter, returning `Mw`; used
only on inputs where the run fails before the fitter's value matters. -/
def fitW : List V3 → QuadricModel := fun _ => Mw

/-- Ten pairwise-distinct samples lying exactly (zero noise) on the sphere
`M0` of radius `1/2`: the six axis points and four points of the 3-4-5
family.  The set spans all three coordinate axes, so it is neither collinear
nor coplanar. -/
noncomputable def spherePts : List V3 :=
  [vec3 (1/2) 0 0, vec3 (-(1/2)) 0 0, vec3 0 (1/2) 0, vec3 0 (-(1/2)) 0,
    vec3 0 0 (1/2), vec3 0 0 (-(1/2)), vec3 (3/10) (2/5) 0, vec3 (3/10) 0 (2/5),
    vec3 0 (3/10) (2/5), vec3 (2/5) (3/10) 0]

/-- Modelled from the spec: the behavior of the Ellipsoid Least-Squares
Fitter (body absent from the repository) on the sample sets it is applied to
in the run over `spherePts`.  Spec §8 pins this behavior: "For a Sample Set
generated by sampling points exactly on a known ellipsoid (given center,
axes, rotation) with zero noise, the Least-Squares Fitter recovers that
ellipsoid's quadric"; accordingly, on a sample set lying exactly on the
sphere `M0` this fitter returns `M0`, and on any other input it returns a
degenerate (zero-eigenvalue) model, so it cannot complete a run the
specified fitter would not complete. -/
noncomputable def fitLS : List V3 → QuadricModel := fun l =>
  if ∀ m ∈ l, quadricCR (Qmat M0) M0.ub M0.k (m - M0.center) = 0 then M0
  else { center := 0, R := 1, lam := fun _ => 0, ub := 0, k := -1 }

/-- A concrete session with an empty sample buffer. -/
noncomputable def stW : Session :=
  ⟨dyn0, dyn0, 1, true, false, 0, 0, 1, 0, 0, 1/10, 0, []⟩

/-- A concrete session holding the ten distinct sphere samples, inlier
threshold `1/10`, reference field strength `1`, and a RANSAC budget of a
single iteration. -/
noncomputable def st1 : Session :=
  ⟨dyn0, dyn0, 1, true, false, 0, 0, 1, 0, 0, 1/10, 0, spherePts⟩

/-- A concrete session whose stored result matrices have the completed-run
shapes (3×3 and 3×1). -/
noncomputable def stC : Session :=
  ⟨⟨3, 3, fun _ _ => 0⟩, ⟨3, 1, fun _ _ => 0⟩, 1, false, false, 0, 0, 1, 0, 0, 1/10, 0, []⟩

/-- A concrete ascending list of (eigenvalue, eigenvector-tag) pairs. -/
def pairsW : List (ℕ × Bool) := [(1, true), (2, false)]

lemma dotProduct_self_nonneg (x : V3) : 0 ≤ x ⬝ᵥ x :=
  Finset.sum_nonneg fun i _ => mul_self_nonneg (x i)

lemma dotProduct_self_pos {x : V3} (hx : x ≠ 0) : 0 < x ⬝ᵥ x := by
  obtain ⟨i, hi⟩ := Function.ne_iff.mp hx
  exact Finset.sum_pos' (fun j _ => mul_self_nonneg (x j))
    ⟨i, Finset.mem_univ i, mul_self_pos.mpr hi⟩

lemma posDef3_one : PosDef3 (1 : M3) := by
  intro d hd
  rw [Matrix.one_mulVec]
  exact dotProduct_self_pos hd

lemma norm3_zero : norm3 0 = 0 := by
  simp [norm3]

lemma e0_ne_zero : e0 ≠ (0 : V3) := by
  intro h
  have h0 := congrFun h 0
  simp [e0] at h0

lemma quadricCR_smul (Q : M3) (ub : V3) (k : ℝ) (d : V3) (t : ℝ) :
    quadricCR Q ub k (t • d) = (d ⬝ᵥ Q.mulVec d) * (t * t) + (ub ⬝ᵥ d) * t + k := by
  simp only [quadricCR, Matrix.mulVec_smul, Matrix.smul_dotProduct, Matrix.dotProduct_smul,
    smul_eq_mul]
  ring

lemma intersectT_spec (qa qb k : ℝ) (hqa : 0 < qa) (hk : k < 0) :
    0 < intersectT qa qb k ∧
      qa * (intersectT qa qb k * intersectT qa qb k) + qb * intersectT qa qb k + k = 0 ∧
      ∀ u : ℝ, 0 < u → qa * (u * u) + qb * u + k = 0 → u = intersectT qa qb k := by
  have hdisc : 0 < qb ^ 2 - 4 * qa * k := by nlinarith [sq_nonneg qb]
  have hs : Real.sqrt (qb ^ 2 - 4 * qa * k) * Real.sqrt (qb ^ 2 - 4 * qa * k)
      = qb ^ 2 - 4 * qa * k := Real.mul_self_sqrt hdisc.le
  have habs : |qb| < Real.sqrt (qb ^ 2 - 4 * qa * k) := by
    have h1 : qb ^ 2 < qb ^ 2 - 4 * qa * k := by nlinarith
    have h2 := Real.sqrt_lt_sqrt (sq_nonneg qb) h1
    rwa [Real.sqrt_sq_eq_abs] at h2
  have h2qa : 0 < 2 * qa := by linarith
  have htlo : (-qb - Real.sqrt (qb ^ 2 - 4 * qa * k)) / (2 * qa) < 0 := by
    apply div_neg_of_neg_of_pos _ h2qa
    have := neg_abs_le qb
    linarith [neg_le_abs qb]
  have hthi : 0 < (-qb + Real.sqrt (qb ^ 2 - 4 * qa * k)) / (2 * qa) := by
    apply div_pos _ h2qa
    linarith [le_abs_self qb]
  have hT : intersectT qa qb k = (-qb + Real.sqrt (qb ^ 2 - 4 * qa * k)) / (2 * qa) := by
    rw [intersectT, if_neg (not_lt.mpr htlo.le)]
  have hdiscrim : discrim qa qb k
      = Real.sqrt (qb ^ 2 - 4 * qa * k) * Real.sqrt (qb ^ 2 - 4 * qa * k) := by
    rw [hs, discrim]
  have hroot := quadratic_eq_zero_iff (ne_of_gt hqa) hdiscrim
  refine ⟨hT ▸ hthi, ?_, ?_⟩
  · rw [hT]
    exact (hroot _).mpr (Or.inl rfl)
  · intro u hu hzero
    rcases (hroot u).mp hzero with h | h
    · rw [hT, h]
    · exfalso
      rw [h] at hu
      linarith

lemma intersect_fixed (r_m r_e : V3) (Q : M3) (ub : V3) (k : ℝ)
    (hqa : 0 < (r_m - r_e) ⬝ᵥ Q.mulVec (r_m - r_e)) (hk : k < 0)
    (hsurf : quadricCR Q ub k (r_m - r_e) = 0) :
    intersect r_m r_e Q ub k = r_m := by
  obtain ⟨_, _, huniq⟩ := intersectT_spec _ (ub ⬝ᵥ (r_m - r_e)) k hqa hk
  have hone : (1 : ℝ) = intersectT ((r_m - r_e) ⬝ᵥ Q.mulVec (r_m - r_e))
      (ub ⬝ᵥ (r_m - r_e)) k := by
    apply huniq 1 one_pos
    have h1 := hsurf
    simp only [quadricCR] at h1
    nlinarith [h1]
  rw [intersect, ← hone, one_smul]
  abel

/-- C2: for a positive-definite quadric matrix, a measured point distinct from
the center, and a center-relative constant term `k < 0` (the center lies
strictly inside the ellipsoid), `intersect` returns `r_e + t·(r_m − r_e)`
where `t` is the unique positive root placing the point exactly on the
ellipsoid surface; in particular a point already on the surface is returned
unchanged (`t = 1`). -/
theorem intersect_surface_point (r_m r_e : V3) (Q : M3) (ub : V3) (k : ℝ)
    (hQ : PosDef3 Q) (hne : r_m ≠ r_e) (hk : k < 0) :
    ∃ t : ℝ, 0 < t ∧
      intersect r_m r_e Q ub k = r_e + t • (r_m - r_e) ∧
      quadricCR Q ub k (t • (r_m - r_e)) = 0 ∧
      (∀ u : ℝ, 0 < u → quadricCR Q ub k (u • (r_m - r_e)) = 0 → u = t) ∧
      (quadricCR Q ub k (r_m - r_e) = 0 → intersect r_m r_e Q ub k = r_m) := by
  have hd : r_m - r_e ≠ 0 := sub_ne_zero.mpr hne
  have hqa : 0 < (r_m - r_e) ⬝ᵥ Q.mulVec (r_m - r_e) := hQ _ hd
  obtain ⟨hpos, hzero, huniq⟩ := intersectT_spec _ (ub ⬝ᵥ (r_m - r_e)) k hqa hk
  refine ⟨_, hpos, rfl, ?_, ?_, ?_⟩
  · rw [quadricCR_smul]
    exact hzero
  · intro u hu hql
    rw [quadricCR_smul] at hql
    exact huniq u hu hql
  · intro hsurf
    exact intersect_fixed r_m r_e Q ub k hqa hk hsurf

/-- Witness for C2 at the unit sphere (`Q = I`, `ub = 0`, `k = −1`) and the
surface point `e0`. -/
theorem intersect_surface_point_witness :
    PosDef3 (1 : M3) ∧ e0 ≠ (0 : V3) ∧ ((-1 : ℝ) < 0) ∧
      (∃ t : ℝ, 0 < t ∧
        intersect e0 0 1 0 (-1) = 0 + t • (e0 - 0) ∧
        quadricCR 1 0 (-1) (t • (e0 - 0)) = 0 ∧
        (∀ u : ℝ, 0 < u → quadricCR 1 0 (-1) (u • (e0 - 0)) = 0 → u = t) ∧
        (quadricCR 1 0 (-1) (e0 - 0) = 0 → intersect e0 0 1 0 (-1) = e0)) :=
  ⟨posDef3_one, e0_ne_zero, by norm_num,
    intersect_surface_point e0 0 1 0 (-1) posDef3_one e0_ne_zero (by norm_num)⟩

lemma sorted_map_fst_iff {α β : Type} [LinearOrder α] (l : List (α × β)) :
    List.Sorted (· ≤ ·) (l.map Prod.fst) ↔ List.Sorted eigLE l :=
  List.pairwise_map

/-- C3: `eigSort` reorders the (eigenvalue, eigenvector) pairs so that the
eigenvalues are ascending, moving each eigenvector together with its
eigenvalue and changing nothing else: the output is a permutation of the
input pair list (so the multiset of pairs — eigenvector entries and signs
included — is preserved). -/
theorem eigSort_reorders_pairs {α β : Type} [LinearOrder α] (pairs : List (α × β)) :
    List.Perm (eigSort pairs) pairs ∧
      List.Sorted (· ≤ ·) ((eigSort pairs).map Prod.fst) := by
  refine ⟨List.perm_insertionSort eigLE pairs, ?_⟩
  rw [sorted_map_fst_iff]
  exact List.sorted_insertionSort eigLE pairs

/-- C8: `eigSort` is idempotent — an already-ascending decomposition is left
unchanged, and applying the sort twice equals applying it once. -/
theorem eigSort_idempotent {α β : Type} [LinearOrder α] (pairs : List (α × β)) :
    (List.Sorted (· ≤ ·) (pairs.map Prod.fst) → eigSort pairs = pairs) ∧
      eigSort (eigSort pairs) = eigSort pairs := by
  constructor
  · intro h
    exact List.Sorted.insertionSort_eq ((sorted_map_fst_iff pairs).mp h)
  · exact List.Sorted.insertionSort_eq (List.sorted_insertionSort eigLE pairs)

/-- Witness for C8 at a concrete ascending pair list. -/
theorem eigSort_idempotent_witness :
    List.Sorted (· ≤ ·) (pairsW.map Prod.fst) ∧ eigSort pairsW = pairsW :=
  ⟨by decide, (eigSort_idempotent pairsW).1 (by decide)⟩

lemma get_append_of_lt {α : Type} (l : List α) (c : α) (j : ℕ) (hj : j < l.length)
    (h : j < (l ++ [c]).length) : (l ++ [c]).get ⟨j, h⟩ = l.get ⟨j, hj⟩ := by
  simp [List.get_eq_getElem, List.getElem_append_left hj]

lemma get_append_last {α : Type} (l : List α) (c : α) (h : l.length < (l ++ [c]).length) :
    (l ++ [c]).get ⟨l.length, h⟩ = c := by
  simp [List.get_eq_getElem]

lemma ransacSelect_append {μ : Type} (count : μ → ℕ) (l : List μ) (c : μ) :
    ransacSelect count (l ++ [c]) = ransacStep count (ransacSelect count l) c := by
  simp [ransacSelect, List.foldl_append]

lemma ransacSelect_firstMax {μ : Type} (count : μ → ℕ) (cands : List μ) (hne : cands ≠ []) :
    ∃ (i : ℕ) (hi : i < cands.length),
      ransacSelect count cands = some (cands.get ⟨i, hi⟩) ∧
      (∀ (j : ℕ) (hj : j < cands.length),
          count (cands.get ⟨j, hj⟩) ≤ count (cands.get ⟨i, hi⟩)) ∧
      (∀ (j : ℕ) (hj : j < cands.length), j < i →
          count (cands.get ⟨j, hj⟩) < count (cands.get ⟨i, hi⟩)) := by
  induction cands using List.reverseRecOn with
  | nil => exact absurd rfl hne
  | append_singleton l c ih =>
    rcases eq_or_ne l [] with hl | hl
    · subst hl
      refine ⟨0, by simp, ?_, ?_, ?_⟩
      · rfl
      · intro j hj
        have hj0 : j = 0 := by
          simp only [List.nil_append, List.length_singleton] at hj
          omega
        subst hj0
        exact le_refl _
      · intro j hj hji
        omega
    · obtain ⟨i, hi, hsel, hmax, hfirst⟩ := ih hl
      rw [ransacSelect_append, hsel]
      by_cases hlt : count (l.get ⟨i, hi⟩) < count c
      · have hlen : l.length < (l ++ [c]).length := by simp
        refine ⟨l.length, hlen, ?_, ?_, ?_⟩
        · rw [get_append_last]
          simp only [ransacStep]
          rw [if_pos hlt]
        · intro j hj
          rw [get_append_last]
          rcases lt_or_ge j l.length with hjl | hjl
          · rw [get_append_of_lt l c j hjl]
            exact le_of_lt (lt_of_le_of_lt (hmax j hjl) hlt)
          · have hje : j = l.length := by
              simp only [List.length_append, List.length_singleton] at hj
              omega
            subst hje
            rw [get_append_last]
        · intro j hj hji
          rw [get_append_last]
          have hjl : j < l.length := hji
          rw [get_append_of_lt l c j hjl]
          exact lt_of_le_of_lt (hmax j hjl) hlt
      · have hi' : i < (l ++ [c]).length := by
          simp only [List.length_append, List.length_singleton]
          omega
        refine ⟨i, hi', ?_, ?_, ?_⟩
        · rw [get_append_of_lt l c i hi]
          simp only [ransacStep]
          rw [if_neg hlt]
        · intro j hj
          rw [get_append_of_lt l c i hi]
          rcases lt_or_ge j l.length with hjl | hjl
          · rw [get_append_of_lt l c j hjl]
            exact hmax j hjl
          · have hje : j = l.length := by
              simp only [List.length_append, List.length_singleton] at hj
              omega
            subst hje
            rw [get_append_last]
            exact not_lt.mp hlt
        · intro j hj hji
          rw [get_append_of_lt l c i hi]
          have hjl : j < l.length := lt_trans hji hi
          rw [get_append_of_lt l c j hjl]
          exact hfirst j hjl hji

/-- C4: across the iterations, the RANSAC best-tracking fold keeps the
candidate whose inlier count is the largest seen so far, and a later
candidate that merely ties is not taken: the selected winner is the first
candidate attaining the maximal inlier count, hence uniquely determined by
the candidate order. -/
theorem ransac_keeps_first_best (meas : List V3) (thresh : ℝ)
    (cands : List QuadricModel) (hne : cands ≠ []) :
    ∃ (i : ℕ) (hi : i < cands.length),
      ransacSelect (fun M => countInliers M thresh meas) cands
          = some (cands.get ⟨i, hi⟩) ∧
      (∀ (j : ℕ) (hj : j < cands.length),
          countInliers (cands.get ⟨j, hj⟩) thresh meas
            ≤ countInliers (cands.get ⟨i, hi⟩) thresh meas) ∧
      (∀ (j : ℕ) (hj : j < cands.length), j < i →
          countInliers (cands.get ⟨j, hj⟩) thresh meas
            < countInliers (cands.get ⟨i, hi⟩) thresh meas) :=
  ransacSelect_firstMax _ cands hne

/-- Witness for C4 at a singleton candidate list. -/
theorem ransac_keeps_first_best_witness :
    ([Mw] : List QuadricModel) ≠ [] ∧
      (∃ (i : ℕ) (hi : i < ([Mw] : List QuadricModel).length),
        ransacSelect (fun M => countInliers M 0 []) [Mw]
            = some (([Mw] : List QuadricModel).get ⟨i, hi⟩) ∧
        (∀ (j : ℕ) (hj : j < ([Mw] : List QuadricModel).length),
            countInliers (([Mw] : List QuadricModel).get ⟨j, hj⟩) 0 []
              ≤ countInliers (([Mw] : List QuadricModel).get ⟨i, hi⟩) 0 []) ∧
        (∀ (j : ℕ) (hj : j < ([Mw] : List QuadricModel).length), j < i →
            countInliers (([Mw] : List QuadricModel).get ⟨j, hj⟩) 0 []
              < countInliers (([Mw] : List QuadricModel).get ⟨i, hi⟩) 0 [])) :=
  ⟨by simp, ransac_keeps_first_best [] 0 [Mw] (by simp)⟩

/-- C5: once the best-tracking fold has selected a winner `w`, the run
produces no final model when `w`'s inlier set has fewer than 9 samples (No
Consensus), and otherwise the final quadric model is the least-squares refit
on `w`'s full inlier set. -/
theorem ransac_refit_or_no_consensus (fit : List V3 → QuadricModel)
    (cands : List QuadricModel) (meas : List V3) (thresh : ℝ) (w : QuadricModel)
    (hw : ransacSelect (fun M => countInliers M thresh meas) cands = some w) :
    (countInliers w thresh meas < 9 → ransacFinal fit cands meas thresh = none) ∧
      (9 ≤ countInliers w thresh meas →
        ransacFinal fit cands meas thresh = some (fit (inliers w thresh meas))) := by
  constructor
  · intro h
    simp [ransacFinal, hw, h]
  · intro h
    simp [ransacFinal, hw, Nat.not_lt.mpr h]

/-- Witness for C5 at a singleton candidate list and an empty sample set. -/
theorem ransac_refit_or_no_consensus_witness :
    ransacSelect (fun M => countInliers M 0 []) [Mw] = some Mw ∧
      countInliers Mw 0 ([] : List V3) < 9 ∧
      ransacFinal (fun _ => Mw) [Mw] [] 0 = none := by
  have hsel : ransacSelect (fun M => countInliers M 0 ([] : List V3)) [Mw] = some Mw := rfl
  have hcount : countInliers Mw 0 ([] : List V3) < 9 := by
    simp [countInliers, inliers]
  exact ⟨hsel, hcount, (ransac_refit_or_no_consensus _ _ _ _ _ hsel).1 hcount⟩

lemma rot_sandwich (R : M3) (hR : R.transpose * R = 1) (D E : Fin 3 → ℝ) :
    R * Matrix.diagonal D * R.transpose * (R * Matrix.diagonal E * R.transpose)
      = R * Matrix.diagonal (fun i => D i * E i) * R.transpose := by
  have h : ∀ X : M3, R.transpose * (R * X) = X := fun X => by
    rw [← Matrix.mul_assoc, hR, Matrix.one_mul]
  simp only [Matrix.mul_assoc]
  rw [h (Matrix.diagonal E * R.transpose), ← Matrix.mul_assoc (Matrix.diagonal D),
    Matrix.diagonal_mul_diagonal]

lemma diagonal_const_eq_smul (c : ℝ) :
    Matrix.diagonal (fun _ : Fin 3 => c) = c • (1 : M3) := by
  ext i j
  rw [Matrix.smul_apply, Matrix.one_apply, Matrix.diagonal_apply]
  split <;> simp

lemma calA_transpose (M : QuadricModel) (s : ℝ) : (calA M s).transpose = calA M s := by
  unfold calA
  rw [Matrix.transpose_mul, Matrix.transpose_mul, Matrix.transpose_transpose,
    Matrix.diagonal_transpose, ← Matrix.mul_assoc]

lemma calA_mul_Qmat_mul_calA (M : QuadricModel) (s : ℝ)
    (hR : M.R.transpose * M.R = 1) (hpos : ∀ i, 0 < M.lam i) :
    calA M s * Qmat M * calA M s = (s ^ 2) • (1 : M3) := by
  have hRR : M.R * M.R.transpose = 1 := Matrix.mul_eq_one_comm.mp hR
  unfold calA Qmat
  rw [rot_sandwich M.R hR, rot_sandwich M.R hR]
  have hdiag : (fun i => Real.sqrt (s ^ 2 / M.lam i) * M.lam i
      * Real.sqrt (s ^ 2 / M.lam i)) = fun _ : Fin 3 => s ^ 2 := by
    funext i
    have h0 : 0 ≤ s ^ 2 / M.lam i := div_nonneg (sq_nonneg s) (hpos i).le
    have hss : Real.sqrt (s ^ 2 / M.lam i) * Real.sqrt (s ^ 2 / M.lam i)
        = s ^ 2 / M.lam i := Real.mul_self_sqrt h0
    calc Real.sqrt (s ^ 2 / M.lam i) * M.lam i * Real.sqrt (s ^ 2 / M.lam i)
        = Real.sqrt (s ^ 2 / M.lam i) * Real.sqrt (s ^ 2 / M.lam i) * M.lam i := by ring
      _ = s ^ 2 / M.lam i * M.lam i := by rw [hss]
      _ = s ^ 2 := div_mul_cancel₀ _ (ne_of_gt (hpos i))
  rw [hdiag, diagonal_const_eq_smul, Matrix.mul_smul, Matrix.mul_one, Matrix.smul_mul, hRR]

lemma calA_sq (M : QuadricModel) (s : ℝ)
    (hR : M.R.transpose * M.R = 1) (hpos : ∀ i, 0 < M.lam i) :
    calA M s * calA M s
      = (s ^ 2) • (M.R * Matrix.diagonal (fun i => (M.lam i)⁻¹) * M.R.transpose) := by
  unfold calA
  rw [rot_sandwich M.R hR]
  have hdiag : (fun i => Real.sqrt (s ^ 2 / M.lam i) * Real.sqrt (s ^ 2 / M.lam i))
      = fun i => s ^ 2 * (M.lam i)⁻¹ := by
    funext i
    rw [Real.mul_self_sqrt (div_nonneg (sq_nonneg s) (hpos i).le), div_eq_mul_inv]
  rw [hdiag]
  have hsm : (fun i => s ^ 2 * (M.lam i)⁻¹)
      = (s ^ 2) • fun i : Fin 3 => (M.lam i)⁻¹ := by
    funext i
    simp
  rw [hsm, Matrix.diagonal_smul, Matrix.mul_smul, Matrix.smul_mul]

/-- C1: for a final quadric model given by the sorted eigen-decomposition
`Q = R·diag(λ)·Rᵗ` (R orthogonal) and a positive reference field strength
`s`, `magCal` outputs the soft-iron matrix `A = R·diag(√(s²/λᵢ))·Rᵗ` and the
hard-iron bias `b = c`, the ellipsoid center from the linear solve; the
output matrix is symmetric and maps the fitted quadric onto the reference
sphere (`A·Q·A = s²·I`).  If any eigenvalue is non-positive, the derivation
is a Fit Failure and produces no transform. -/
theorem magCal_derivation (M : QuadricModel) (s : ℝ)
    (hR : M.R.transpose * M.R = 1) (hs : 0 < s)
    (hsorted : M.lam 0 ≤ M.lam 1 ∧ M.lam 1 ≤ M.lam 2) :
    ((∀ i, 0 < M.lam i) →
        magCal M s = some (calA M s, M.center) ∧
        (calA M s).transpose = calA M s ∧
        calA M s * Qmat M * calA M s = (s ^ 2) • (1 : M3)) ∧
      ((∃ i, M.lam i ≤ 0) → magCal M s = none) := by
  constructor
  · intro hpos
    refine ⟨?_, calA_transpose M s, calA_mul_Qmat_mul_calA M s hR hpos⟩
    rw [magCal, if_pos hpos]
  · rintro ⟨i, hi⟩
    rw [magCal, if_neg]
    push_neg
    exact ⟨i, hi⟩

/-- Witness for C1 at the unit-sphere model `Mw` and `s = 1`. -/
theorem magCal_derivation_witness :
    (Mw.R.transpose * Mw.R = 1 ∧ (0 : ℝ) < 1 ∧ Mw.lam 0 ≤ Mw.lam 1 ∧
        Mw.lam 1 ≤ Mw.lam 2 ∧ (∀ i, 0 < Mw.lam i)) ∧
      (magCal Mw 1 = some (calA Mw 1, Mw.center) ∧
        (calA Mw 1).transpose = calA Mw 1 ∧
        calA Mw 1 * Qmat Mw * calA Mw 1 = ((1 : ℝ) ^ 2) • (1 : M3)) := by
  have h1 : Mw.R.transpose * Mw.R = 1 := by
    simp [Mw]
  have hpos : ∀ i, 0 < Mw.lam i := fun i => by norm_num [Mw]
  have hs1 : Mw.lam 0 ≤ Mw.lam 1 := by norm_num [Mw]
  have hs2 : Mw.lam 1 ≤ Mw.lam 2 := by norm_num [Mw]
  exact ⟨⟨h1, one_pos, hs1, hs2, hpos⟩,
    (magCal_derivation Mw 1 h1 one_pos ⟨hs1, hs2⟩).1 hpos⟩

lemma magCal_pos (M : QuadricModel) (s : ℝ) (A : M3) (b : V3)
    (hmag : magCal M s = some (A, b)) :
    (∀ i, 0 < M.lam i) ∧ A = calA M s ∧ b = M.center := by
  by_cases hpos : ∀ i, 0 < M.lam i
  · rw [magCal, if_pos hpos] at hmag
    obtain ⟨hA, hb⟩ := Prod.mk.injEq .. ▸ Option.some.inj hmag
    exact ⟨hpos, hA.symm, hb.symm⟩
  · rw [magCal, if_neg hpos] at hmag
    exact absurd hmag (Option.some_ne_none _).symm

lemma mulVec_self_dot (A : M3) (d : V3) :
    A.mulVec d ⬝ᵥ A.mulVec d = d ⬝ᵥ (A.transpose * A).mulVec d := by
  rw [Matrix.dotProduct_mulVec, ← Matrix.mulVec_transpose, Matrix.mulVec_mulVec,
    Matrix.dotProduct_comm]

/-- C7 (amended): for a completed derivation `magCal M s = some (A, b)` with
orthogonal rotation `R`, the corrected vector of every sample `m` satisfies
`‖A·(m − b)‖² = s² · (m−b)ᵗ·(R·diag(λᵢ⁻¹)·Rᵗ)·(m−b)` — i.e. the corrected
norm equals the reference field strength scaled by the inverse quadric form,
not a quantity within the inlier threshold of `s`. -/
theorem corrected_norm_identity (M : QuadricModel) (s : ℝ) (A : M3) (b : V3)
    (hR : M.R.transpose * M.R = 1) (hmag : magCal M s = some (A, b)) (m : V3) :
    norm3 (A.mulVec (m - b)) ^ 2
      = s ^ 2 * ((m - b) ⬝ᵥ
          (M.R * Matrix.diagonal (fun i => (M.lam i)⁻¹) * M.R.transpose).mulVec (m - b)) := by
  obtain ⟨hpos, hA, hb⟩ := magCal_pos M s A b hmag
  subst hA
  have h1 : norm3 ((calA M s).mulVec (m - b)) ^ 2
      = (calA M s).mulVec (m - b) ⬝ᵥ (calA M s).mulVec (m - b) := by
    rw [norm3, Real.sq_sqrt (dotProduct_self_nonneg _)]
  rw [h1, mulVec_self_dot, calA_transpose, calA_sq M s hR hpos,
    Matrix.smul_mulVec_assoc, Matrix.dotProduct_smul, smul_eq_mul]

/-- Witness for the amended C7 at the unit-sphere model `Mw`, `s = 1` and the
sample `m = 0`. -/
theorem corrected_norm_identity_witness :
    (Mw.R.transpose * Mw.R = 1 ∧ magCal Mw 1 = some (calA Mw 1, Mw.center)) ∧
      norm3 ((calA Mw 1).mulVec ((0 : V3) - Mw.center)) ^ 2
        = 1 ^ 2 * (((0 : V3) - Mw.center) ⬝ᵥ
            (Mw.R * Matrix.diagonal (fun i => (Mw.lam i)⁻¹)
              * Mw.R.transpose).mulVec ((0 : V3) - Mw.center)) := by
  have h1 : Mw.R.transpose * Mw.R = 1 := by simp [Mw]
  have hmag : magCal Mw 1 = some (calA Mw 1, Mw.center) := by
    rw [magCal, if_pos (fun i => by norm_num [Mw])]
  exact ⟨⟨h1, hmag⟩, corrected_norm_identity Mw 1 (calA Mw 1) Mw.center h1 hmag 0⟩

lemma vec3_eq_iff (x y z x' y' z' : ℝ) :
    vec3 x y z = vec3 x' y' z' ↔ x = x' ∧ y = y' ∧ z = z' := by
  constructor
  · intro h
    refine ⟨?_, ?_, ?_⟩
    · simpa [vec3] using congrFun h 0
    · simpa [vec3] using congrFun h 1
    · simpa [vec3] using congrFun h 2
  · rintro ⟨rfl, rfl, rfl⟩
    rfl

lemma vec3_dot (x y z : ℝ) : vec3 x y z ⬝ᵥ vec3 x y z = x * x + y * y + z * z := by
  simp [vec3, Matrix.dotProduct, Fin.sum_univ_three]

lemma Qmat_M0 : Qmat M0 = Matrix.diagonal (fun _ : Fin 3 => (4 : ℝ)) := by
  simp [Qmat, M0]

lemma sphere_qa (p : V3) :
    (p - M0.center) ⬝ᵥ (Qmat M0).mulVec (p - M0.center) = 4 * (p ⬝ᵥ p) := by
  have hc : p - M0.center = p := by simp [M0]
  rw [hc, Qmat_M0]
  simp [Matrix.dotProduct, Matrix.mulVec_diagonal, Fin.sum_univ_three]
  ring

lemma sphere_on_surface (p : V3) (hp : p ⬝ᵥ p = 1/4) :
    quadricCR (Qmat M0) M0.ub M0.k (p - M0.center) = 0 := by
  have hc : p - M0.center = p := by simp [M0]
  rw [quadricCR, sphere_qa, hp, hc]
  simp [M0]

lemma sphere_residual (p : V3) (hp : p ⬝ᵥ p = 1/4) : residual M0 p = 0 := by
  have hqa : 0 < (p - M0.center) ⬝ᵥ (Qmat M0).mulVec (p - M0.center) := by
    rw [sphere_qa, hp]
    norm_num
  rw [residual, intersect_fixed p M0.center (Qmat M0) M0.ub M0.k hqa
    (by norm_num [M0]) (sphere_on_surface p hp)]
  simp [norm3]

lemma spherePts_nodup : spherePts.Nodup := by
  simp only [spherePts, List.nodup_cons, List.mem_cons, List.not_mem_nil, or_false,
    List.nodup_nil, and_true, vec3_eq_iff, not_or]
  norm_num

lemma spherePts_on_surface :
    ∀ m ∈ spherePts, quadricCR (Qmat M0) M0.ub M0.k (m - M0.center) = 0 := by
  intro m hm
  simp only [spherePts, List.mem_cons, List.not_mem_nil, or_false] at hm
  rcases hm with rfl | rfl | rfl | rfl | rfl | rfl | rfl | rfl | rfl | rfl
  all_goals exact sphere_on_surface _ (by rw [vec3_dot]; norm_num)

lemma spherePts_residual : ∀ m ∈ spherePts, residual M0 m ≤ (1/10 : ℝ) := by
  intro m hm
  simp only [spherePts, List.mem_cons, List.not_mem_nil, or_false] at hm
  rcases hm with rfl | rfl | rfl | rfl | rfl | rfl | rfl | rfl | rfl | rfl
  all_goals rw [sphere_residual _ (by rw [vec3_dot]; norm_num)]
  all_goals norm_num

lemma inliers_of_forall (M : QuadricModel) (thresh : ℝ) :
    ∀ l : List V3, (∀ m ∈ l, residual M m ≤ thresh) → inliers M thresh l = l := by
  intro l
  induction l with
  | nil => intro _; rfl
  | cons m rest ih =>
    intro h
    simp only [inliers]
    rw [if_pos (h m (List.mem_cons_self m rest)),
      ih (fun x hx => h x (List.mem_cons_of_mem m hx))]

lemma calA_M0 : calA M0 1 = Matrix.diagonal (fun _ : Fin 3 => (1/2 : ℝ)) := by
  have hsq : Real.sqrt ((1 : ℝ) / 4) = 1/2 := by
    rw [show (1 : ℝ)/4 = (1/2)^2 by norm_num, Real.sqrt_sq (by norm_num : (0:ℝ) ≤ 1/2)]
  have h4 : Real.sqrt (4 : ℝ) = 2 := by
    rw [show (4 : ℝ) = 2^2 by norm_num, Real.sqrt_sq (by norm_num : (0:ℝ) ≤ 2)]
  rw [calA]
  simp [M0, one_pow, hsq, h4]

lemma sphere_corrected (p : V3) (hp : p ⬝ᵥ p = 1/4) :
    norm3 ((calA M0 1).mulVec (p - M0.center)) = 1/4 := by
  have hc : p - M0.center = p := by simp [M0]
  rw [calA_M0, hc, norm3]
  have hp' : p 0 * p 0 + p 1 * p 1 + p 2 * p 2 = 1/4 := by
    simpa [Matrix.dotProduct, Fin.sum_univ_three] using hp
  have hdot : (Matrix.diagonal (fun _ : Fin 3 => (1/2 : ℝ))).mulVec p
      ⬝ᵥ (Matrix.diagonal (fun _ : Fin 3 => (1/2 : ℝ))).mulVec p = 1/16 := by
    simp only [Matrix.dotProduct, Matrix.mulVec_diagonal, Fin.sum_univ_three]
    linear_combination (1/4 : ℝ) * hp'
  rw [hdot, show (1 : ℝ)/16 = (1/4)^2 by norm_num,
    Real.sqrt_sq (by norm_num : (0:ℝ) ≤ 1/4)]

/-- Counterexample to C7: a completed run of the pipeline on ten
pairwise-distinct samples lying exactly (zero noise) on the sphere `M0` of
radius `1/2`.  The sample set contains all six axis points, so it is neither
collinear nor coplanar and satisfies the distinctness requirement of §7 (the
`Nodup` conjunct); per spec §8 the Least-Squares Fitter on any sample set
drawn exactly from this sphere recovers exactly the sphere's quadric model,
which is what `fitLS` returns there.  The session's RANSAC budget is one
iteration, whose candidate is the fitter applied to the minimal subset of
the first nine samples (nine distinct indices, §4.4); the full-set refit
applies the fitter to the winning inlier set.  The run reaches Complete with
`A = diag(1/2)`, `b = 0`, and every sample — in particular `(1/2, 0, 0)` —
is an inlier of the winning set with intersector residual `0`; yet the
corrected norm `‖A·(p − b)‖ = 1/4` differs from the reference field
strength `1` by `3/4`, far beyond the inlier threshold `1/10`. -/
theorem corrected_norm_counterexample :
    st1.measurements_.Nodup ∧
      (∀ m ∈ st1.measurements_, quadricCR (Qmat M0) M0.ub M0.k (m - M0.center) = 0) ∧
      fitLS (st1.measurements_.take 9) = M0 ∧
      (runCalibration st1 fitLS [fitLS (st1.measurements_.take 9)]).2 = Except.ok () ∧
      magCal M0 st1.reference_field_strength_ = some (calA M0 1, M0.center) ∧
      vec3 (1/2) 0 0 ∈ inliers M0 st1.inlier_thresh_ st1.measurements_ ∧
      ¬ (|norm3 ((calA M0 1).mulVec (vec3 (1/2) 0 0 - M0.center))
            - st1.reference_field_strength_| ≤ st1.inlier_thresh_) := by
  have hms : st1.measurements_ = spherePts := rfl
  have hth : st1.inlier_thresh_ = 1/10 := rfl
  have hrf : st1.reference_field_strength_ = 1 := rfl
  have htake : fitLS (spherePts.take 9) = M0 := by
    rw [fitLS, if_pos]
    intro m hm
    exact spherePts_on_surface m (List.take_subset 9 spherePts hm)
  have hinl : inliers M0 (1/10) spherePts = spherePts :=
    inliers_of_forall M0 (1/10) spherePts spherePts_residual
  have hcount : ¬ (countInliers M0 (1/10) spherePts < 9) := by
    rw [countInliers, hinl]
    simp [spherePts]
  have hfitfull : fitLS (inliers M0 (1/10) spherePts) = M0 := by
    rw [hinl, fitLS, if_pos spherePts_on_surface]
  have hfinal : ransacFinal fitLS [M0] spherePts (1/10) = some M0 := by
    have hsel : ransacSelect (fun M => countInliers M (1/10) spherePts) [M0]
        = some M0 := rfl
    have hstep : ransacFinal fitLS [M0] spherePts (1/10)
        = if countInliers M0 (1/10) spherePts < 9 then none
          else some (fitLS (inliers M0 (1/10) spherePts)) := by
      simp only [ransacFinal]
      rw [hsel]
    rw [hstep, if_neg hcount, hfitfull]
  have hmag : magCal M0 (1 : ℝ) = some (calA M0 1, M0.center) := by
    rw [magCal, if_pos (fun i => by norm_num [M0])]
  refine ⟨spherePts_nodup, spherePts_on_surface, htake, ?_, ?_, ?_, ?_⟩
  · rw [hms, htake]
    simp only [runCalibration, hms, hth, hrf]
    rw [if_neg (by simp [spherePts] : ¬ (spherePts.length < 9))]
    simp only [hfinal, hmag]
  · rw [hrf]
    exact hmag
  · rw [hth, hms, hinl]
    simp [spherePts]
  · rw [sphere_corrected _ (by rw [vec3_dot]; norm_num), hrf, hth]
    intro habs
    rw [abs_le] at habs
    linarith [habs.1]

/-- C6: whenever a calibration run fails at run level, the run aborts with
the stored calibration result unchanged — the whole session, and in
particular the stored `A_` and `b_` behind the accessors, keeps exactly its
previous value — and the three failure kinds surfaced to the caller are
pairwise distinct. -/
theorem run_failure_preserves_result (st : Session) (fit : List V3 → QuadricModel)
    (cands : List QuadricModel) :
    (∀ f : RunFailure, (runCalibration st fit cands).2 = Except.error f →
        (runCalibration st fit cands).1 = st ∧
        (runCalibration st fit cands).1.A_ = st.A_ ∧
        (runCalibration st fit cands).1.b_ = st.b_) ∧
      (RunFailure.insufficientData ≠ RunFailure.noConsensus ∧
        RunFailure.insufficientData ≠ RunFailure.degenerateGeometry ∧
        RunFailure.noConsensus ≠ RunFailure.degenerateGeometry) := by
  refine ⟨?_, by decide, by decide, by decide⟩
  intro f hf
  by_cases h9 : st.measurements_.length < 9
  · simp [runCalibration, h9]
  · rcases hrf : ransacFinal fit cands st.measurements_ st.inlier_thresh_ with _ | M
    · simp [runCalibration, h9, hrf]
    · rcases hmc : magCal M st.reference_field_strength_ with _ | Ab
      · simp [runCalibration, h9, hrf, hmc]
      · exfalso
        simp [runCalibration, h9, hrf, hmc] at hf

/-- Witness for C6: a run on an empty sample buffer fails with Insufficient
Data and leaves the session untouched. -/
theorem run_failure_preserves_result_witness :
    (runCalibration stW fitW []).2 = Except.error RunFailure.insufficientData ∧
      (runCalibration stW fitW []).1 = stW :=
  ⟨rfl, ((run_failure_preserves_result stW fitW []).1 RunFailure.insufficientData rfl).1⟩

/-- C9: the result accessors are plain reads — each accessor equals the
corresponding read of the stored `A_`/`b_` matrix — and in a completed state
(`A_` of shape 3×3 and `b_` of shape 3×1) every read is in bounds and
returns exactly the stored entry; in a state whose `A_` has no rows (such as
before any completed run) the read yields nothing. -/
theorem accessors_in_bounds (st : Session)
    (hA : st.A_.rows = 3) (hAc : st.A_.cols = 3)
    (hb : st.b_.rows = 3) (hbc : st.b_.cols = 1) :
    (a11 st = st.A_.read 0 0 ∧ a12 st = st.A_.read 0 1 ∧ a13 st = st.A_.read 0 2 ∧
      a21 st = st.A_.read 1 0 ∧ a22 st = st.A_.read 1 1 ∧ a23 st = st.A_.read 1 2 ∧
      a31 st = st.A_.read 2 0 ∧ a32 st = st.A_.read 2 1 ∧ a33 st = st.A_.read 2 2 ∧
      bx st = st.b_.read 0 0 ∧ by_ st = st.b_.read 1 0 ∧ bz st = st.b_.read 2 0) ∧
      (∀ i j : Fin 3, st.A_.read i.1 j.1
          = some (st.A_.entry (Fin.cast hA.symm i) (Fin.cast hAc.symm j))) ∧
      (∀ i : Fin 3, st.b_.read i.1 0
          = some (st.b_.entry (Fin.cast hb.symm i) (Fin.cast hbc.symm 0))) ∧
      ((a11 st).isSome ∧ (a12 st).isSome ∧ (a13 st).isSome ∧
        (a21 st).isSome ∧ (a22 st).isSome ∧ (a23 st).isSome ∧
        (a31 st).isSome ∧ (a32 st).isSome ∧ (a33 st).isSome ∧
        (bx st).isSome ∧ (by_ st).isSome ∧ (bz st).isSome) ∧
      (∀ st2 : Session, st2.A_.rows = 0 → a11 st2 = none) := by
  have hreadA : ∀ i j : Fin 3, st.A_.read i.1 j.1
      = some (st.A_.entry (Fin.cast hA.symm i) (Fin.cast hAc.symm j)) := by
    intro i j
    rw [DynMatrix.read, dif_pos ⟨by rw [hA]; exact i.2, by rw [hAc]; exact j.2⟩]
    rfl
  have hreadb : ∀ i : Fin 3, st.b_.read i.1 0
      = some (st.b_.entry (Fin.cast hb.symm i) (Fin.cast hbc.symm 0)) := by
    intro i
    rw [DynMatrix.read, dif_pos ⟨by rw [hb]; exact i.2, by rw [hbc]; norm_num⟩]
    rfl
  have hsomeA : ∀ i j : ℕ, i < 3 → j < 3 → (st.A_.read i j).isSome := by
    intro i j hi hj
    rw [DynMatrix.read, dif_pos ⟨by omega, by omega⟩]
    rfl
  have hsomeb : ∀ i : ℕ, i < 3 → (st.b_.read i 0).isSome := by
    intro i hi
    rw [DynMatrix.read, dif_pos ⟨by omega, by omega⟩]
    rfl
  refine ⟨⟨rfl, rfl, rfl, rfl, rfl, rfl, rfl, rfl, rfl, rfl, rfl, rfl⟩,
    hreadA, hreadb,
    ⟨hsomeA 0 0 (by norm_num) (by norm_num), hsomeA 0 1 (by norm_num) (by norm_num),
      hsomeA 0 2 (by norm_num) (by norm_num), hsomeA 1 0 (by norm_num) (by norm_num),
      hsomeA 1 1 (by norm_num) (by norm_num), hsomeA 1 2 (by norm_num) (by norm_num),
      hsomeA 2 0 (by norm_num) (by norm_num), hsomeA 2 1 (by norm_num) (by norm_num),
      hsomeA 2 2 (by norm_num) (by norm_num), hsomeb 0 (by norm_num),
      hsomeb 1 (by norm_num), hsomeb 2 (by norm_num)⟩, ?_⟩
  · intro st2 h0
    rw [a11, DynMatrix.read, dif_neg]
    rw [h0]
    intro hcon
    exact absurd hcon.1 (by omega)

/-- Witness for C9 at a session whose stored matrices have the completed-run
shapes. -/
theorem accessors_in_bounds_witness :
    (stC.A_.rows = 3 ∧ stC.A_.cols = 3 ∧ stC.b_.rows = 3 ∧ stC.b_.cols = 1) ∧
      (a11 stC).isSome ∧ (bz stC).isSome :=
  ⟨⟨rfl, rfl, rfl, rfl⟩,
    ((accessors_in_bounds stC rfl rfl rfl rfl).2.2.2.1).1,
    (((((((((((((accessors_in_bounds stC rfl rfl rfl rfl).2.2.2.1).2).2).2).2).2).2).2).2).2).2).2)⟩

/-- C10: invoking `magCal` leaves every field of the session unchanged — the
member function is declared `const` in the header — and the derived soft-iron
matrix and bias are delivered exclusively through the outputs, which depend
only on the quadric model and the configured reference field strength. -/
theorem magCal_leaves_session_unchanged (st : Session) (M : QuadricModel) :
    (magCalCall st M).1 = st ∧
      (magCalCall st M).1.A_ = st.A_ ∧
      (magCalCall st M).1.b_ = st.b_ ∧
      (magCalCall st M).1.reference_field_strength_ = st.reference_field_strength_ ∧
      (magCalCall st M).1.calibrating_ = st.calibrating_ ∧
      (magCalCall st M).1.first_time_ = st.first_time_ ∧
      (magCalCall st M).1.calibration_time_ = st.calibration_time_ ∧
      (magCalCall st M).1.start_time_ = st.start_time_ ∧
      (magCalCall st M).1.ransac_iters_ = st.ransac_iters_ ∧
      (magCalCall st M).1.measurement_skip_ = st.measurement_skip_ ∧
      (magCalCall st M).1.measurement_throttle_ = st.measurement_throttle_ ∧
      (magCalCall st M).1.inlier_thresh_ = st.inlier_thresh_ ∧
      (magCalCall st M).1.measurement_prev_ = st.measurement_prev_ ∧
      (magCalCall st M).1.measurements_ = st.measurements_ ∧
      (magCalCall st M).2 = magCal M st.reference_field_strength_ :=
  ⟨rfl, rfl, rfl, rfl, rfl, rfl, rfl, rfl, rfl, rfl, rfl, rfl, rfl, rfl, rfl⟩

end MagCal
